import Mathlib

/-!
Verification of the Lunagis illumination-map generator against its design
specification.  The embedded code lives in
`illumination_map_gen/src_python/illumination_engine.py` (circular-segment
physics) and `illumination_map_gen/src_python/run_mission.py` (DEM / horizon
grid, packing, streaming driver, entry point).

Real-valued numerics are idealised: the float arrays of the Python code are
embedded over `ℝ` where transcendental functions appear (arccos, sqrt, π)
and over exact rationals `ℚ` where the code only adds, multiplies, divides
and floors.  Vectorized numpy operations are embedded per pixel, since every
claim concerns per-pixel behaviour and the operations carry no cross-pixel
dependency.
-/

open Real Set

namespace Lunagis

/-! ### IlluminationPhysics — `IlluminationEngine.calculate_circular_segment_area`
(`illumination_engine.py`, lines 9–50) -/

/-- Fraction of a disk of radius `r` cut off by a chord at perpendicular
distance `x` from the center:
`seg_frac = (r²·arccos(x/r) − x·√(r²−x²)) / (π·r²)`.
Embeds `term1`, `term2`, `seg_area`, `total_area`, `seg_frac` of
`calculate_circular_segment_area` (lines 34–39). -/
noncomputable def segFrac (x r : ℝ) : ℝ :=
  (r ^ 2 * Real.arccos (x / r) - x * Real.sqrt (r ^ 2 - x ^ 2)) / (π * r ^ 2)

/-- Per-pixel semantics of the masked assignments of
`calculate_circular_segment_area`, in radians.  The code initialises the
result to 0, fills the open band `-r < h < r` with the partial-disk value
(`seg_frac` when `h ≥ 0`, `1 − seg_frac` when `h < 0`, with
`x = min(|h|, r)`, lines 20–45), then overwrites `h ≤ -r` with 1 (line 47)
and finally `h ≥ r` with 0 (line 48); the `if`-chain below reproduces that
precedence. -/
noncomputable def fracRad (h r : ℝ) : ℝ :=
  if r ≤ h then 0
  else if h ≤ -r then 1
  else if 0 ≤ h then segFrac (min |h| r) r
  else 1 - segFrac (min |h| r) r

/-- `IlluminationEngine.calculate_circular_segment_area` (scalar, per-pixel):
`r_rad = np.radians(sun_radius_deg)`, `h_rad = np.radians(horizon − sun)`
(lines 15–16), then the branch structure of `fracRad`. -/
noncomputable def calculate_circular_segment_area
    (sun_elev_deg horizon_elev_deg sun_radius_deg : ℝ) : ℝ :=
  fracRad ((horizon_elev_deg - sun_elev_deg) * (π / 180))
    (sun_radius_deg * (π / 180))

/-! ### HorizonGrid — `class RealDEM` (`run_mission.py`, lines 16–87) -/

/-- Python `int()` applied to a float: truncation toward zero, embedded on
exact rationals. -/
def pyInt (q : ℚ) : ℤ := if 0 ≤ q then ⌊q⌋ else -⌊-q⌋

/-- `buffer_px = int(buffer_m / pixel_size)` (`run_mission.py`, line 28). -/
def buffer_px (buffer_m pixel_size : ℚ) : ℤ := pyInt (buffer_m / pixel_size)

/-- `x_start, x_end = buffer_px, full_width - buffer_px` (line 30), and the
same for the y axis (line 31), for a full dimension `full_dim`. -/
def roi_bounds (buffer_m pixel_size : ℚ) (full_dim : ℤ) : ℤ × ℤ :=
  (buffer_px buffer_m pixel_size, full_dim - buffer_px buffer_m pixel_size)

/-- The ROI sentence of the specification for claim C3, stated literally:
the buffer in pixels equals `round(buffer-distance / pixel-scale)` and the
selected interior sub-rectangle is `[buffer, full-dim − buffer)` along both
axes. -/
def roiClaimRound (buffer_m pixel_size : ℚ) (full_width full_height : ℤ) : Prop :=
  buffer_px buffer_m pixel_size = round (buffer_m / pixel_size) ∧
  roi_bounds buffer_m pixel_size full_width =
    (round (buffer_m / pixel_size), full_width - round (buffer_m / pixel_size)) ∧
  roi_bounds buffer_m pixel_size full_height =
    (round (buffer_m / pixel_size), full_height - round (buffer_m / pixel_size))

/-- `np.mod(azimuth_grid, 360.0)` (line 76): remainder with the sign of the
divisor, `az − 360·⌊az/360⌋`. -/
def wrap360 (az : ℚ) : ℚ := az - 360 * ⌊az / 360⌋

/-- Checked integer indexing into a per-pixel bucket list: `none` exactly
when the index is out of range for the stored array. -/
def listGetZ (prof : List ℤ) (i : ℤ) : Option ℤ :=
  if 0 ≤ i then prof[i.toNat]? else none

/-- Per-pixel semantics of `RealDEM.get_horizon_elevation_vectorized`
(lines 75–87).  `prof` is the 360-bucket horizon profile stored for one
pixel (`horizon_roi[y, x, :]`, hundredths of a degree).  The code computes
`az = np.mod(azimuth, 360)`, `az_floor = floor(az)`,
`az_ceil = (az_floor + 1) % 360`, `fraction = az - az_floor`, reads
`h1 = prof[az_floor]/100`, `h2 = prof[az_ceil]/100` and returns
`h1 + (h2 - h1) * fraction`; the array reads are embedded as checked
accesses. -/
def get_horizon_elevation_vectorized (prof : List ℤ) (azimuth : ℚ) : Option ℚ :=
  Option.bind (listGetZ prof ⌊wrap360 azimuth⌋) fun v1 =>
    Option.bind (listGetZ prof ((⌊wrap360 azimuth⌋ + 1) % 360)) fun v2 =>
      some ((v1 : ℚ) / 100 + ((v2 : ℚ) / 100 - (v1 : ℚ) / 100) *
        (wrap360 azimuth - (⌊wrap360 azimuth⌋ : ℚ)))

/-- A concrete 360-bucket profile used to instantiate lookup theorems. -/
def witnessProf : List ℤ := List.replicate 360 7

/-- The y part of the affine pixel transform evaluated at column 0 and the
pixel-center rows `y_start + j + 1/2` (lines 50–51):
`y_j = e·(y_start + j + 1/2) + f`, where `e` and `f` are the affine
coefficients multiplying the row index and the constant term. -/
def raw_y_coords (e f y_start : ℚ) (H : ℕ) : Fin H → ℚ :=
  fun j => e * (y_start + (j.val : ℚ) + 1 / 2) + f

/-- The flip test `self.y_coords[0] < self.y_coords[-1]` (line 68); `false`
for an empty row range (where the Python indexing would fault). -/
def needsFlip {H : ℕ} (y : Fin H → ℚ) : Bool :=
  if h : 0 < H then decide (y ⟨0, h⟩ < y ⟨H - 1, by omega⟩) else false

/-- `[::-1]` / `np.flip(·, axis=0)` along the row axis (lines 70–73). -/
def flipRows {α : Type} {H : ℕ} (v : Fin H → α) : Fin H → α :=
  fun j => v ⟨H - 1 - j.val, by have := j.isLt; omega⟩

/-- The y-coordinate vector exposed after `RealDEM` construction
(lines 67–70): flipped exactly when the raw vector is increasing. -/
def exposed_y (e f y_start : ℚ) (H : ℕ) : Fin H → ℚ :=
  if needsFlip (raw_y_coords e f y_start H) then
    flipRows (raw_y_coords e f y_start H)
  else raw_y_coords e f y_start H

/-- A row-indexed per-pixel array (horizon cube, `lats`, `lons`) as exposed
after construction (lines 71–73): flipped along rows exactly when the
y-vector was flipped. -/
def exposed_rows {α : Type} (e f y_start : ℚ) {H : ℕ} (v : Fin H → α) : Fin H → α :=
  if needsFlip (raw_y_coords e f y_start H) then flipRows v else v

/-! ### Output packing — `init_netcdf` (`run_mission.py`, lines 189–209)

`init_netcdf` creates the signed 8-bit `illumination` variable with
`scale_factor = 1/254`, `add_offset = 0.5` and `fill_value = -128`
(lines 190–207); on write (`nc_illum[idx] = illum_map`, line 244) the
netCDF library packs each float as `round((v - add_offset)/scale_factor)`
and unpacking is the affine inverse. -/

/-- Packing of a fraction `v`: `round((v − 0.5)·254)`. -/
def pack (v : ℚ) : ℤ := round ((v - 1 / 2) * 254)

/-- Unpacking of a stored byte: `n·(1/254) + 0.5`. -/
def unpack (n : ℤ) : ℚ := (n : ℚ) * (1 / 254) + 1 / 2

/-- The reserved no-data byte (`fill_value=-128`, line 198). -/
def fill_value : ℤ := -128

/-! ### SimulationDriver — the streaming loop of `__main__`
(`run_mission.py`, lines 228–251) -/

/-- The streaming loop: `while current_time <= end:` compute a frame,
commit `(hours elapsed since start, frame)` to the sink, advance by
`step` hours (lines 232–251).  Times are in hours, so
`hours_elapsed = current - start`.  A nonpositive step — where the Python
loop would never terminate — is totalised to the empty series; the run
of interest uses the default step of 1 hour (line 229). -/
def missionLoop {α : Type} (compute : ℚ → α) (endT step start current : ℚ) :
    List (ℚ × α) :=
  if h : current ≤ endT ∧ 0 < step then
    (current - start, compute current) ::
      missionLoop compute endT step start (current + step)
  else []
  termination_by (⌊(endT - current) / step⌋ + 1).toNat
  decreasing_by
    obtain ⟨h1, h2⟩ := h
    have hne : step ≠ 0 := h2.ne'
    have key : (endT - (current + step)) / step = (endT - current) / step - 1 := by
      rw [show endT - (current + step) = endT - current - step by ring, sub_div,
        div_self hne]
    have h0 : (0 : ℚ) ≤ (endT - current) / step := div_nonneg (by linarith) h2.le
    have hf : 0 ≤ ⌊(endT - current) / step⌋ := Int.floor_nonneg.mpr h0
    rw [key, Int.floor_sub_one]
    omega

/-! ### Entry point — the `__main__` block (`run_mission.py`, lines 211–263) -/

/-- Number of parameters of `RealDEM.__init__` besides `self`
(`meta_path, mask_path`, line 17). -/
def realDEM_init_params : ℕ := 2

/-- The positional arguments passed at the construction site
`RealDEM(cfg[..meta], cfg[..horizon], cfg)` (line 216). -/
def main_realDEM_args : List String :=
  ["cfg.paths.output_meta", "cfg.paths.output_horizon", "cfg"]

/-- Result of a Python call: either a value, or a `TypeError` raised while
binding the arguments. -/
inductive PyCallResult (α : Type) : Type
  | ok (a : α)
  | typeError

/-- Python argument binding: calling a function of fixed positional arity
with a different number of positional arguments raises `TypeError` before
the body runs. -/
def pyCall {α β : Type} (arity : ℕ) (f : List α → β) (args : List α) :
    PyCallResult β :=
  if args.length = arity then .ok (f args) else .typeError

/-- The `__main__` block up to and including the `RealDEM` construction
(lines 211–216): the ephemeris setup, netCDF creation and simulation loop
(abstracted as the frame list `restOfMain`) run only if the construction
call binds successfully. -/
def mainEntry {α : Type} (restOfMain : List α) : PyCallResult (List α) :=
  match pyCall realDEM_init_params (fun _ => ()) main_realDEM_args with
  | .ok _ => .ok restOfMain
  | .typeError => .typeError

/-! ### Shutdown protocol — `try/except/finally` of `__main__`
(`run_mission.py`, lines 223–263) -/

/-- The exception classes distinguished by the `except` clauses. -/
inductive PyExc : Type
  | keyboardInterrupt
  | error (msg : String)

/-- How the body of the `try` block terminated. -/
inductive BodyExit : Type
  | normal
  | raised (e : PyExc)

/-- The output sink: the frames committed so far and the number of times
`close()` has been called on it. -/
structure Sink (α : Type) : Type where
  committed : List α
  closeCount : ℕ

/-- `ds.close()` in the `finally` block (line 262). -/
def closeSink {α : Type} (s : Sink α) : Sink α :=
  { s with closeCount := s.closeCount + 1 }

/-- The shutdown protocol of `__main__` (lines 223–263) for a run whose
`try` body committed `frames` to the open sink and then terminated with
`exitK`: `except KeyboardInterrupt` prints and swallows (lines 255–256),
`except Exception as e` re-raises `e` (lines 257–259), and the `finally`
block closes the sink on every path (lines 260–263).  Returns the final
sink state and the outcome seen by the caller. -/
def runMissionProtected {α : Type} (frames : List α) (exitK : BodyExit) :
    Sink α × BodyExit :=
  let afterBody : Sink α := { committed := frames, closeCount := 0 }
  let outcome : BodyExit :=
    match exitK with
    | .normal => .normal
    | .raised .keyboardInterrupt => .normal
    | .raised (.error m) => .raised (.error m)
  (closeSink afterBody, outcome)

/-! ## Theorems -/

/-- C2: for every configuration, the mission entry point fails before any
simulation work: the `__main__` construction site passes three positional
arguments to `RealDEM.__init__`, which accepts only two besides `self`, so
argument binding raises `TypeError` and no frame is ever computed or
written. -/
theorem mainEntry_typeError (α : Type) (restOfMain : List α) :
    mainEntry restOfMain = PyCallResult.typeError := rfl

/-- C3 fails as stated: with buffer distance 5 and pixel scale 3 (both
positive) the code computes `int(5/3) = 1` buffer pixels, while the claimed
`round(5/3) = 2`. -/
theorem roiClaimRound_counterexample : ¬ roiClaimRound 5 3 100 100 := by
  intro hcl
  have h1 : buffer_px 5 3 = round ((5 : ℚ) / 3) := hcl.1
  have h2 : buffer_px 5 3 = 1 := by
    unfold buffer_px pyInt
    rw [if_pos (by norm_num : (0 : ℚ) ≤ 5 / 3), Int.floor_eq_iff]
    constructor <;> norm_num
  have h3 : round ((5 : ℚ) / 3) = 2 := by
    rw [round_eq, Int.floor_eq_iff]
    constructor <;> norm_num
  rw [h2, h3] at h1
  exact absurd h1 (by decide)

/-- C3 (amended): during construction, for every metadata record with
positive pixel scale and nonnegative buffer distance, the buffer in pixels
equals the Python `int()` truncation `⌊buffer-distance / pixel-scale⌋`
(not the rounding), and the selected interior sub-rectangle is
`[buffer, full-dim − buffer)` along both the row and column axes. -/
theorem buffer_px_floor (bm ps : ℚ) (fw fh : ℤ) (hps : 0 < ps) (hbm : 0 ≤ bm) :
    buffer_px bm ps = ⌊bm / ps⌋ ∧
    roi_bounds bm ps fw = (⌊bm / ps⌋, fw - ⌊bm / ps⌋) ∧
    roi_bounds bm ps fh = (⌊bm / ps⌋, fh - ⌊bm / ps⌋) := by
  have h0 : (0 : ℚ) ≤ bm / ps := div_nonneg hbm hps.le
  have hb : buffer_px bm ps = ⌊bm / ps⌋ := by
    unfold buffer_px pyInt
    rw [if_pos h0]
  exact ⟨hb, by unfold roi_bounds; rw [hb], by unfold roi_bounds; rw [hb]⟩

/-- Witness for the amended C3 at buffer 5, scale 3, grid 100×200. -/
theorem buffer_px_floor_witness :
    (0 : ℚ) < 3 ∧ (0 : ℚ) ≤ 5 ∧
    (buffer_px 5 3 = ⌊(5 : ℚ) / 3⌋ ∧
     roi_bounds 5 3 100 = (⌊(5 : ℚ) / 3⌋, 100 - ⌊(5 : ℚ) / 3⌋) ∧
     roi_bounds 5 3 200 = (⌊(5 : ℚ) / 3⌋, 200 - ⌊(5 : ℚ) / 3⌋)) :=
  ⟨by norm_num, by norm_num, buffer_px_floor 5 3 100 200 (by norm_num) (by norm_num)⟩

/-! Helper facts about the azimuth wrap and the bucket indices. -/

lemma wrap360_nonneg (az : ℚ) : 0 ≤ wrap360 az := by
  have h1 : ((⌊az / 360⌋ : ℚ)) ≤ az / 360 := Int.floor_le _
  have h2 : (360 : ℚ) * (⌊az / 360⌋ : ℚ) ≤ 360 * (az / 360) := by linarith
  have h3 : (360 : ℚ) * (az / 360) = az := by ring
  unfold wrap360
  linarith

lemma wrap360_lt (az : ℚ) : wrap360 az < 360 := by
  have h1 : az / 360 < (⌊az / 360⌋ : ℚ) + 1 := Int.lt_floor_add_one _
  have h2 : (360 : ℚ) * (az / 360) < 360 * ((⌊az / 360⌋ : ℚ) + 1) := by linarith
  have h3 : (360 : ℚ) * (az / 360) = az := by ring
  unfold wrap360
  linarith

lemma floorBucket_mem (az : ℚ) : 0 ≤ ⌊wrap360 az⌋ ∧ ⌊wrap360 az⌋ ≤ 359 := by
  constructor
  · exact Int.floor_nonneg.mpr (wrap360_nonneg az)
  · have h : ⌊wrap360 az⌋ < 360 := Int.floor_lt.mpr (by exact_mod_cast wrap360_lt az)
    omega

lemma ceilBucket_mem (az : ℚ) :
    0 ≤ (⌊wrap360 az⌋ + 1) % 360 ∧ (⌊wrap360 az⌋ + 1) % 360 ≤ 359 := by
  constructor
  · exact Int.emod_nonneg _ (by norm_num)
  · have h := Int.emod_lt_of_pos (⌊wrap360 az⌋ + 1) (show (0 : ℤ) < 360 by norm_num)
    omega

lemma listGetZ_eq (prof : List ℤ) (i : ℤ) (h0 : 0 ≤ i)
    (h1 : i.toNat < prof.length) :
    listGetZ prof i = some (prof.get ⟨i.toNat, h1⟩) := by
  unfold listGetZ
  rw [if_pos h0, List.getElem?_eq_getElem h1]
  simp [List.get_eq_getElem]

/-- C5: for every real azimuth value (negative or at or above 360 included),
the lookup wraps the azimuth into [0,360), the floor bucket index and its
successor both lie in [0,359], and the lookup returns a defined elevation
for every pixel whose stored profile has the full 360 buckets — the
indexing never goes out of range. -/
theorem lookup_safe (prof : List ℤ) (hlen : prof.length = 360) (az : ℚ) :
    0 ≤ wrap360 az ∧ wrap360 az < 360 ∧
    0 ≤ ⌊wrap360 az⌋ ∧ ⌊wrap360 az⌋ ≤ 359 ∧
    0 ≤ (⌊wrap360 az⌋ + 1) % 360 ∧ (⌊wrap360 az⌋ + 1) % 360 ≤ 359 ∧
    (get_horizon_elevation_vectorized prof az).isSome = true := by
  obtain ⟨hf0, hf1⟩ := floorBucket_mem az
  obtain ⟨hc0, hc1⟩ := ceilBucket_mem az
  refine ⟨wrap360_nonneg az, wrap360_lt az, hf0, hf1, hc0, hc1, ?_⟩
  have hfl : (⌊wrap360 az⌋).toNat < prof.length := by omega
  have hcl : ((⌊wrap360 az⌋ + 1) % 360).toNat < prof.length := by omega
  unfold get_horizon_elevation_vectorized
  rw [listGetZ_eq prof _ hf0 hfl, listGetZ_eq prof _ hc0 hcl]
  rfl

lemma witnessProf_length : witnessProf.length = 360 := by
  rw [witnessProf, List.length_replicate]

/-- Witness for C5 with a concrete profile and the azimuth −725. -/
theorem lookup_safe_witness :
    witnessProf.length = 360 ∧
    (get_horizon_elevation_vectorized witnessProf (-725)).isSome = true :=
  ⟨witnessProf_length,
   (lookup_safe witnessProf witnessProf_length (-725)).2.2.2.2.2.2⟩

/-- C4: a horizon lookup at an integer-degree azimuth `k ∈ [0,359]`
(0, 90, 180, 270 in particular) returns exactly the stored bucket value
divided by 100, with no interpolation error; and a lookup at azimuth
359.5 = 719/2 linearly interpolates between stored bucket 359 and stored
bucket 0 (wrapping 359→0), returning their average. -/
theorem lookup_exact_at_integer (prof : List ℤ) (hlen : prof.length = 360) :
    (∀ (k : ℕ) (hk : k < 360),
      get_horizon_elevation_vectorized prof (k : ℚ) =
        some ((prof.get ⟨k, by omega⟩ : ℚ) / 100)) ∧
    get_horizon_elevation_vectorized prof (719 / 2) =
      some (((prof.get ⟨359, by omega⟩ : ℚ) / 100 +
             (prof.get ⟨0, by omega⟩ : ℚ) / 100) / 2) := by
  constructor
  · intro k hk
    have hwrap : wrap360 (k : ℚ) = (k : ℚ) := by
      unfold wrap360
      have h0 : ⌊(k : ℚ) / 360⌋ = 0 := by
        rw [Int.floor_eq_zero_iff, Set.mem_Ico]
        constructor
        · positivity
        · rw [div_lt_one (by norm_num)]
          exact_mod_cast hk
      rw [h0]
      push_cast
      ring
    have hk0 : (0 : ℤ) ≤ (k : ℤ) := Int.natCast_nonneg k
    have hkl : ((k : ℤ)).toNat < prof.length := by omega
    have hcl : (((k : ℤ) + 1) % 360).toNat < prof.length := by omega
    unfold get_horizon_elevation_vectorized
    rw [hwrap, Int.floor_natCast,
      listGetZ_eq prof _ hk0 hkl,
      listGetZ_eq prof _ (Int.emod_nonneg _ (by norm_num)) hcl,
      Option.some_bind, Option.some_bind]
    have hfrac : (k : ℚ) - (((k : ℤ) : ℚ)) = 0 := by
      push_cast
      ring
    rw [hfrac, mul_zero, add_zero,
      show (prof.get ⟨((k : ℤ)).toNat, hkl⟩) = prof.get ⟨k, by omega⟩ from rfl]
  · have hwrap : wrap360 (719 / 2 : ℚ) = 719 / 2 := by
      unfold wrap360
      have h0 : ⌊(719 / 2 : ℚ) / 360⌋ = 0 := by
        rw [Int.floor_eq_zero_iff, Set.mem_Ico]
        norm_num
      rw [h0]
      ring
    have hfl : ⌊(719 / 2 : ℚ)⌋ = 359 := by
      rw [Int.floor_eq_iff]
      constructor <;> norm_num
    have h359 : ((359 : ℤ)).toNat < prof.length := by omega
    have h0l : ((0 : ℤ)).toNat < prof.length := by omega
    unfold get_horizon_elevation_vectorized
    rw [hwrap, hfl, show ((359 : ℤ) + 1) % 360 = 0 by decide,
      listGetZ_eq prof _ (by norm_num) h359,
      listGetZ_eq prof _ (by norm_num) h0l,
      Option.some_bind, Option.some_bind]
    congr 1
    rw [show (prof.get ⟨((359 : ℤ)).toNat, h359⟩) = prof.get ⟨359, by omega⟩ from rfl,
      show (prof.get ⟨((0 : ℤ)).toNat, h0l⟩) = prof.get ⟨0, by omega⟩ from rfl]
    push_cast
    ring

/-- Witness for C4 at azimuths 90 and 359.5 on a concrete profile. -/
theorem lookup_exact_witness :
    witnessProf.length = 360 ∧
    get_horizon_elevation_vectorized witnessProf (90 : ℚ) =
      some ((witnessProf.get ⟨90, by rw [witnessProf_length]; omega⟩ : ℚ) / 100) ∧
    get_horizon_elevation_vectorized witnessProf (719 / 2) =
      some (((witnessProf.get ⟨359, by rw [witnessProf_length]; omega⟩ : ℚ) / 100 +
             (witnessProf.get ⟨0, by rw [witnessProf_length]; omega⟩ : ℚ) / 100) / 2) := by
  refine ⟨witnessProf_length, ?_, ?_⟩
  · have h := (lookup_exact_at_integer witnessProf witnessProf_length).1 90 (by norm_num)
    exact_mod_cast h
  · exact (lookup_exact_at_integer witnessProf witnessProf_length).2

/-- C7: with scale 1/254 and offset 0.5, packing maps fraction 0 to −127
and fraction 1 to +127; for every `v ∈ [0,1]`, `unpack (pack v)`
approximates `v` within half the packing step 1/254; and packing a valid
fraction never produces the reserved fill value −128. -/
theorem pack_round_trip :
    pack 0 = -127 ∧ pack 1 = 127 ∧
    ∀ v : ℚ, 0 ≤ v → v ≤ 1 →
      |unpack (pack v) - v| ≤ (1 / 254) / 2 ∧ pack v ≠ fill_value := by
  refine ⟨?_, ?_, ?_⟩
  · show round (((0 : ℚ) - 1 / 2) * 254) = -127
    rw [show ((0 : ℚ) - 1 / 2) * 254 = ((-127 : ℤ) : ℚ) by norm_num, round_intCast]
  · show round (((1 : ℚ) - 1 / 2) * 254) = 127
    rw [show ((1 : ℚ) - 1 / 2) * 254 = ((127 : ℤ) : ℚ) by norm_num, round_intCast]
  intro v h0 h1
  have hu : pack v = round ((v - 1 / 2) * 254) := rfl
  constructor
  · have habs : |(v - 1 / 2) * 254 - round ((v - 1 / 2) * 254)| ≤ 1 / 2 :=
      abs_sub_round ((v - 1 / 2) * 254)
    have hexp : unpack (pack v) - v =
        ((round ((v - 1 / 2) * 254) : ℚ) - (v - 1 / 2) * 254) / 254 := by
      rw [hu]
      unfold unpack
      ring
    rw [hexp, abs_div, abs_sub_comm]
    rw [show |(254 : ℚ)| = 254 by norm_num]
    calc |(v - 1 / 2) * 254 - (round ((v - 1 / 2) * 254) : ℚ)| / 254
        ≤ (1 / 2) / 254 := by gcongr
      _ = (1 / 254) / 2 := by norm_num
  · have hge : (-127 : ℚ) ≤ (v - 1 / 2) * 254 := by linarith
    have hr : (-127 : ℤ) ≤ round ((v - 1 / 2) * 254) := by
      rw [round_eq]
      refine Int.le_floor.mpr ?_
      push_cast
      linarith
    rw [hu, fill_value]
    omega

/-- Witness for C7 at `v = 1/3`. -/
theorem pack_round_trip_witness :
    (0 : ℚ) ≤ 1 / 3 ∧ (1 : ℚ) / 3 ≤ 1 ∧
    (|unpack (pack (1 / 3)) - 1 / 3| ≤ (1 / 254) / 2 ∧ pack (1 / 3) ≠ fill_value) :=
  ⟨by norm_num, by norm_num, pack_round_trip.2.2 (1 / 3) (by norm_num) (by norm_num)⟩

/-! Unfolding equations for the streaming loop. -/

lemma missionLoop_go {α : Type} (compute : ℚ → α) (endT step start current : ℚ)
    (h1 : current ≤ endT) (h2 : 0 < step) :
    missionLoop compute endT step start current =
      (current - start, compute current) ::
        missionLoop compute endT step start (current + step) := by
  rw [missionLoop]
  exact dif_pos ⟨h1, h2⟩

lemma missionLoop_halt {α : Type} (compute : ℚ → α) (endT step start current : ℚ)
    (h1 : ¬ current ≤ endT) :
    missionLoop compute endT step start current = [] := by
  rw [missionLoop]
  exact dif_neg fun hc => h1 hc.1

/-- C8: for every start instant, a run whose end instant is the start plus
one hour, at the default one-hour step, iterates the time range inclusively
and commits exactly two frames with elapsed-time values 0.0 and 1.0 to the
sink before returning. -/
theorem missionLoop_two_steps (α : Type) (compute : ℚ → α) (start : ℚ) :
    missionLoop compute (start + 1) 1 start start =
      [(0, compute start), (1, compute (start + 1))] ∧
    (missionLoop compute (start + 1) 1 start start).map Prod.fst = [0, 1] ∧
    (missionLoop compute (start + 1) 1 start start).length = 2 := by
  have e1 := missionLoop_go compute (start + 1) 1 start start (by linarith) one_pos
  have e2 := missionLoop_go compute (start + 1) 1 start (start + 1) (le_refl _) one_pos
  have e3 := missionLoop_halt compute (start + 1) 1 start (start + 1 + 1)
    (by intro hc; linarith)
  have emain : missionLoop compute (start + 1) 1 start start =
      [(0, compute start), (1, compute (start + 1))] := by
    rw [e1, e2, e3, sub_self, add_sub_cancel_left]
  exact ⟨emain, by rw [emain]; rfl, by rw [emain]; rfl⟩

/-- C9: on every exit path — normal completion, a mid-run exception, or a
user interruption — the sink is closed exactly once with every committed
frame preserved; a `KeyboardInterrupt` results in a normal stop with no
exception propagated, and any other exception propagates to the caller
(after the close performed by the `finally` block). -/
theorem runMissionProtected_close_once (α : Type) (frames : List α)
    (exitK : BodyExit) :
    (runMissionProtected frames exitK).1.closeCount = 1 ∧
    (runMissionProtected frames exitK).1.committed = frames ∧
    (exitK = BodyExit.normal →
      (runMissionProtected frames exitK).2 = BodyExit.normal) ∧
    (exitK = BodyExit.raised PyExc.keyboardInterrupt →
      (runMissionProtected frames exitK).2 = BodyExit.normal) ∧
    ∀ m, exitK = BodyExit.raised (PyExc.error m) →
      (runMissionProtected frames exitK).2 = BodyExit.raised (PyExc.error m) := by
  refine ⟨rfl, rfl, ?_, ?_, ?_⟩
  · intro h
    subst h
    rfl
  · intro h
    subst h
    rfl
  · intro m h
    subst h
    rfl

/-- Witness for C9 on an interrupted two-frame run. -/
theorem runMissionProtected_witness :
    (runMissionProtected [(1 : ℕ), 2] (BodyExit.raised PyExc.keyboardInterrupt)).1.closeCount = 1 ∧
    (runMissionProtected [(1 : ℕ), 2] (BodyExit.raised PyExc.keyboardInterrupt)).2 = BodyExit.normal :=
  ⟨(runMissionProtected_close_once ℕ [1, 2] (BodyExit.raised PyExc.keyboardInterrupt)).1,
   (runMissionProtected_close_once ℕ [1, 2] (BodyExit.raised PyExc.keyboardInterrupt)).2.2.2.1 rfl⟩

/-- C6: after construction the exposed y-coordinate sequence is strictly
decreasing for every input raster that has a native row order (nonzero
north–south pixel size `e`); and when the source is oriented South-to-North
(`0 < e`), the y-vector and every row-indexed per-pixel array are flipped
along the row axis before being exposed. -/
theorem exposed_y_decreasing (α : Type) (e f ys : ℚ) (H : ℕ) (v : Fin H → α)
    (he : e ≠ 0) :
    (∀ i j : Fin H, (i : ℕ) < (j : ℕ) →
      exposed_y e f ys H j < exposed_y e f ys H i) ∧
    (0 < e →
      exposed_y e f ys H = flipRows (raw_y_coords e f ys H) ∧
      exposed_rows e f ys v = flipRows v) := by
  rcases he.lt_or_lt with hneg | hpos
  · have hnf : needsFlip (raw_y_coords e f ys H) = false := by
      unfold needsFlip
      split_ifs with hH
      · simp only [decide_eq_false_iff_not, not_lt]
        simp only [raw_y_coords]
        have hcast : (0 : ℚ) ≤ ((H - 1 : ℕ) : ℚ) := Nat.cast_nonneg _
        push_cast
        nlinarith
      · rfl
    constructor
    · intro i j hij
      unfold exposed_y
      rw [hnf]
      simp only [Bool.false_eq_true, if_false]
      simp only [raw_y_coords]
      have hij2 : ((i : ℕ) : ℚ) < ((j : ℕ) : ℚ) := by exact_mod_cast hij
      nlinarith
    · intro h0e
      exact absurd h0e (not_lt.mpr hneg.le)
  · by_cases hH2 : 2 ≤ H
    · have hnf : needsFlip (raw_y_coords e f ys H) = true := by
        unfold needsFlip
        rw [dif_pos (show 0 < H by omega)]
        simp only [decide_eq_true_eq]
        simp only [raw_y_coords]
        have h1 : (1 : ℚ) ≤ ((H - 1 : ℕ) : ℚ) := by
          have h2 : 1 ≤ H - 1 := by omega
          exact_mod_cast h2
        push_cast
        nlinarith
      refine ⟨?_, fun _ => ⟨?_, ?_⟩⟩
      · intro i j hij
        unfold exposed_y
        rw [hnf]
        simp only [if_true]
        unfold flipRows
        simp only [raw_y_coords]
        have hi := i.isLt
        have hj := j.isLt
        have hlt : ((H - 1 - (j : ℕ) : ℕ) : ℚ) < ((H - 1 - (i : ℕ) : ℕ) : ℚ) := by
          have h3 : H - 1 - (j : ℕ) < H - 1 - (i : ℕ) := by omega
          exact_mod_cast h3
        nlinarith
      · unfold exposed_y
        rw [hnf]
        simp
      · unfold exposed_rows
        rw [hnf]
        simp
    · have hnf : needsFlip (raw_y_coords e f ys H) = false := by
        unfold needsFlip
        split_ifs with hH
        · have hH1 : H = 1 := by omega
          subst hH1
          simp only [decide_eq_false_iff_not]
          exact lt_irrefl _
        · rfl
      have hflipid : ∀ (β : Type) (w : Fin H → β), flipRows w = w := by
        intro β w
        funext j
        have hj := j.isLt
        unfold flipRows
        congr 1
        exact Fin.ext (show H - 1 - (j : ℕ) = (j : ℕ) by omega)
      refine ⟨?_, fun _ => ⟨?_, ?_⟩⟩
      · intro i j hij
        have hi := i.isLt
        have hj := j.isLt
        exact absurd hij (by omega)
      · unfold exposed_y
        rw [hnf, hflipid ℚ (raw_y_coords e f ys H)]
        simp
      · unfold exposed_rows
        rw [hnf, hflipid α v]
        simp

/-- Witness for C6 on a 2-row South-to-North grid (`e = 1`). -/
theorem exposed_y_decreasing_witness :
    (∀ i j : Fin 2, (i : ℕ) < (j : ℕ) →
      exposed_y 1 0 0 2 j < exposed_y 1 0 0 2 i) ∧
    (0 < (1 : ℚ) →
      exposed_y 1 0 0 2 = flipRows (raw_y_coords 1 0 0 2) ∧
      exposed_rows 1 0 0 (fun _ : Fin 2 => (0 : ℕ)) =
        flipRows (fun _ : Fin 2 => (0 : ℕ))) :=
  exposed_y_decreasing ℕ 1 0 0 2 (fun _ => 0) one_ne_zero

/-! ### Circular-segment physics: basic values, scaling and monotonicity -/

lemma segFrac_zero {r : ℝ} (hr : 0 < r) : segFrac 0 r = 1 / 2 := by
  unfold segFrac
  rw [zero_div, Real.arccos_zero, zero_mul, sub_zero,
    div_eq_iff (ne_of_gt (mul_pos Real.pi_pos (pow_pos hr 2)))]
  ring

lemma segFrac_self {r : ℝ} (hr : 0 < r) : segFrac r r = 0 := by
  unfold segFrac
  rw [div_self hr.ne', Real.arccos_one, sub_self, Real.sqrt_zero]
  simp

lemma segFrac_scale {c x r : ℝ} (hc : 0 < c) :
    segFrac (c * x) (c * r) = segFrac x r := by
  unfold segFrac
  rw [mul_div_mul_left x r hc.ne',
    show (c * r) ^ 2 - (c * x) ^ 2 = c ^ 2 * (r ^ 2 - x ^ 2) by ring,
    Real.sqrt_mul (sq_nonneg c), Real.sqrt_sq hc.le,
    show (c * r) ^ 2 * Real.arccos (x / r) -
        c * x * (c * Real.sqrt (r ^ 2 - x ^ 2)) =
      c ^ 2 * (r ^ 2 * Real.arccos (x / r) - x * Real.sqrt (r ^ 2 - x ^ 2)) by
        ring,
    show π * (c * r) ^ 2 = c ^ 2 * (π * r ^ 2) by ring,
    mul_div_mul_left _ _ (pow_ne_zero 2 hc.ne')]

/-- Derivative of the segment-area numerator on the open band:
`d/dx [r²·arccos(x/r) − x·√(r²−x²)] = −2·√(r²−x²)`. -/
lemma segArea_hasDerivAt {r x : ℝ} (hr : 0 < r) (hx : x ∈ Ioo 0 r) :
    HasDerivAt (fun t => r ^ 2 * Real.arccos (t / r) - t * Real.sqrt (r ^ 2 - t ^ 2))
      (-2 * Real.sqrt (r ^ 2 - x ^ 2)) x := by
  obtain ⟨hx0, hxr⟩ := hx
  have hrx : 0 < r ^ 2 - x ^ 2 := by nlinarith
  have hs : 0 < Real.sqrt (r ^ 2 - x ^ 2) := Real.sqrt_pos.mpr hrx
  have hs2 : Real.sqrt (r ^ 2 - x ^ 2) ^ 2 = r ^ 2 - x ^ 2 := Real.sq_sqrt hrx.le
  have hxr1 : x / r < 1 := (div_lt_one hr).mpr hxr
  have hxr0 : 0 < x / r := div_pos hx0 hr
  have hdiv : HasDerivAt (fun t : ℝ => t / r) (1 / r) x := by
    simpa using (hasDerivAt_id x).div_const r
  have harc : HasDerivAt (fun t : ℝ => Real.arccos (t / r))
      (-(1 / Real.sqrt (1 - (x / r) ^ 2)) * (1 / r)) x :=
    (Real.hasDerivAt_arccos (ne_of_gt (by linarith)) (ne_of_lt hxr1)).comp x hdiv
  have hterm1 : HasDerivAt (fun t : ℝ => r ^ 2 * Real.arccos (t / r))
      (r ^ 2 * (-(1 / Real.sqrt (1 - (x / r) ^ 2)) * (1 / r))) x :=
    harc.const_mul (r ^ 2)
  have hpow : HasDerivAt (fun t : ℝ => t ^ 2) (2 * x) x := by
    simpa using hasDerivAt_pow 2 x
  have hinner : HasDerivAt (fun t : ℝ => r ^ 2 - t ^ 2) (-(2 * x)) x :=
    hpow.const_sub (r ^ 2)
  have hsqrt : HasDerivAt (fun t : ℝ => Real.sqrt (r ^ 2 - t ^ 2))
      (1 / (2 * Real.sqrt (r ^ 2 - x ^ 2)) * (-(2 * x))) x :=
    (Real.hasDerivAt_sqrt hrx.ne').comp x hinner
  have hterm2 : HasDerivAt (fun t : ℝ => t * Real.sqrt (r ^ 2 - t ^ 2))
      (1 * Real.sqrt (r ^ 2 - x ^ 2) +
        x * (1 / (2 * Real.sqrt (r ^ 2 - x ^ 2)) * (-(2 * x)))) x :=
    (hasDerivAt_id x).mul hsqrt
  have htotal := hterm1.sub hterm2
  have hsubst : Real.sqrt (1 - (x / r) ^ 2) = Real.sqrt (r ^ 2 - x ^ 2) / r := by
    rw [show (1 : ℝ) - (x / r) ^ 2 = (r ^ 2 - x ^ 2) / r ^ 2 by field_simp,
      Real.sqrt_div hrx.le, Real.sqrt_sq hr.le]
  have e1 : r ^ 2 * (-(1 / (Real.sqrt (r ^ 2 - x ^ 2) / r)) * (1 / r)) =
      -(r ^ 2 / Real.sqrt (r ^ 2 - x ^ 2)) := by
    rw [one_div_div]
    field_simp
    ring
  have e2 : 1 * Real.sqrt (r ^ 2 - x ^ 2) +
      x * (1 / (2 * Real.sqrt (r ^ 2 - x ^ 2)) * (-(2 * x))) =
      Real.sqrt (r ^ 2 - x ^ 2) - x ^ 2 / Real.sqrt (r ^ 2 - x ^ 2) := by
    field_simp
    linear_combination (2 * Real.sqrt (r ^ 2 - x ^ 2)) * hs2
  have heq : r ^ 2 * (-(1 / Real.sqrt (1 - (x / r) ^ 2)) * (1 / r)) -
      (1 * Real.sqrt (r ^ 2 - x ^ 2) +
        x * (1 / (2 * Real.sqrt (r ^ 2 - x ^ 2)) * (-(2 * x)))) =
      -2 * Real.sqrt (r ^ 2 - x ^ 2) := by
    rw [hsubst, e1, e2]
    generalize hsgen : Real.sqrt (r ^ 2 - x ^ 2) = w at hs hs2 ⊢
    have hw : w ≠ 0 := hs.ne'
    field_simp
    linear_combination w * hs2
  exact heq ▸ htotal

lemma segFrac_antitoneOn {r : ℝ} (hr : 0 < r) :
    AntitoneOn (fun x => segFrac x r) (Icc 0 r) := by
  have hcont : ContinuousOn
      (fun x => r ^ 2 * Real.arccos (x / r) - x * Real.sqrt (r ^ 2 - x ^ 2))
      (Icc 0 r) := by
    apply Continuous.continuousOn
    exact (continuous_const.mul
        (Real.continuous_arccos.comp (continuous_id.div_const r))).sub
      (continuous_id.mul ((continuous_const.sub (continuous_pow 2)).sqrt))
  have hnum : AntitoneOn
      (fun x => r ^ 2 * Real.arccos (x / r) - x * Real.sqrt (r ^ 2 - x ^ 2))
      (Icc 0 r) := by
    apply antitoneOn_of_deriv_nonpos (convex_Icc 0 r) hcont
    · rw [interior_Icc]
      intro x hx
      exact (segArea_hasDerivAt hr hx).differentiableAt.differentiableWithinAt
    · rw [interior_Icc]
      intro x hx
      rw [(segArea_hasDerivAt hr hx).deriv]
      have hsn := Real.sqrt_nonneg (r ^ 2 - x ^ 2)
      linarith
  intro a ha b hb hab
  have hab2 := hnum ha hb hab
  unfold segFrac
  have hpos : 0 < π * r ^ 2 := mul_pos Real.pi_pos (pow_pos hr 2)
  exact (div_le_div_iff_of_pos_right hpos).mpr hab2

lemma segFrac_nonneg {r x : ℝ} (hr : 0 < r) (hx : x ∈ Icc (0 : ℝ) r) :
    0 ≤ segFrac x r := by
  have h := segFrac_antitoneOn hr hx (right_mem_Icc.mpr hr.le) hx.2
  simp only [segFrac_self hr] at h
  exact h

lemma segFrac_le_half {r x : ℝ} (hr : 0 < r) (hx : x ∈ Icc (0 : ℝ) r) :
    segFrac x r ≤ 1 / 2 := by
  have h := segFrac_antitoneOn hr (left_mem_Icc.mpr hr.le) hx hx.1
  simp only [segFrac_zero hr] at h
  exact h

lemma min_abs_mem {r h : ℝ} (hr : 0 < r) : min |h| r ∈ Icc (0 : ℝ) r :=
  ⟨le_min (abs_nonneg h) hr.le, min_le_right _ _⟩

lemma fracRad_of_nonneg {r h : ℝ} (hr : 0 < r) (hh : 0 ≤ h) :
    fracRad h r = if r ≤ h then 0 else segFrac h r := by
  unfold fracRad
  by_cases h1 : r ≤ h
  · rw [if_pos h1, if_pos h1]
  · rw [if_neg h1, if_neg h1, if_neg (by push_neg; linarith : ¬ h ≤ -r),
      if_pos hh, abs_of_nonneg hh, min_eq_left (by linarith : h ≤ r)]

lemma fracRad_of_nonpos {r h : ℝ} (hr : 0 < r) (hh : h ≤ 0) :
    fracRad h r = if h ≤ -r then 1 else 1 - segFrac (-h) r := by
  unfold fracRad
  rw [if_neg (by push_neg; linarith : ¬ r ≤ h)]
  by_cases h2 : h ≤ -r
  · rw [if_pos h2, if_pos h2]
  · rw [if_neg h2, if_neg h2]
    by_cases h3 : 0 ≤ h
    · have h0 : h = 0 := le_antisymm hh h3
      subst h0
      rw [if_pos le_rfl, abs_zero, min_eq_left hr.le, neg_zero, segFrac_zero hr]
      norm_num
    · rw [if_neg h3, abs_of_neg (lt_of_not_le h3),
        min_eq_left (by push_neg at h2; linarith : -h ≤ r)]

lemma fracRad_le_half {r h : ℝ} (hr : 0 < r) (hh : 0 ≤ h) :
    fracRad h r ≤ 1 / 2 := by
  rw [fracRad_of_nonneg hr hh]
  split_ifs with h1
  · norm_num
  · exact segFrac_le_half hr ⟨hh, by linarith⟩

lemma half_le_fracRad {r h : ℝ} (hr : 0 < r) (hh : h ≤ 0) :
    1 / 2 ≤ fracRad h r := by
  rw [fracRad_of_nonpos hr hh]
  split_ifs with h1
  · norm_num
  · have h4 := segFrac_le_half hr
      (⟨by linarith, by push_neg at h1; linarith⟩ : -h ∈ Icc (0 : ℝ) r)
    linarith

/-- The illumination fraction is non-increasing in `h` (radians) for fixed
positive radius, across the partial band and the boundary cases alike. -/
lemma fracRad_antitone {r : ℝ} (hr : 0 < r) :
    ∀ h1 h2 : ℝ, h1 ≤ h2 → fracRad h2 r ≤ fracRad h1 r := by
  intro h1 h2 hle
  by_cases hc1 : 0 ≤ h1
  · have hc2 : 0 ≤ h2 := le_trans hc1 hle
    rw [fracRad_of_nonneg hr hc1, fracRad_of_nonneg hr hc2]
    split_ifs with ha hb hb
    · exact le_refl 0
    · exact segFrac_nonneg hr ⟨hc1, by push_neg at hb; linarith⟩
    · exact absurd (le_trans hb hle) ha
    · exact segFrac_antitoneOn hr ⟨hc1, by push_neg at hb; linarith⟩
        ⟨hc2, by push_neg at ha; linarith⟩ hle
  · push_neg at hc1
    by_cases hc2 : h2 ≤ 0
    · rw [fracRad_of_nonpos hr hc1.le, fracRad_of_nonpos hr hc2]
      split_ifs with ha hb hb
      · exact le_refl 1
      · exact absurd (hle.trans ha) hb
      · have h4 := segFrac_nonneg hr
          (⟨by linarith, by push_neg at ha; linarith⟩ : -h2 ∈ Icc (0 : ℝ) r)
        linarith
      · have h4 := segFrac_antitoneOn hr
          (⟨by linarith, by push_neg at ha; linarith⟩ : -h2 ∈ Icc (0 : ℝ) r)
          (⟨by linarith, by push_neg at hb; linarith⟩ : -h1 ∈ Icc (0 : ℝ) r)
          (by linarith)
        linarith
    · push_neg at hc2
      calc fracRad h2 r ≤ 1 / 2 := fracRad_le_half hr hc2.le
        _ ≤ fracRad h1 r := half_le_fracRad hr hc1.le

/-- C1: for every sun elevation `s`, horizon elevation `e` and sun angular
radius `r > 0` (degrees), with `h = e − s`: the fraction is 1 when
`h ≤ −r`, 0 when `h ≥ r`, and on the partial band `|h| < r`, with
`x = min(|h|, r)`, it equals the segment fraction
`(r²·arccos(x/r) − x·√(r²−x²))/(π·r²)` when `h ≥ 0` and its complement
when `h < 0`; in particular the fraction is 1 at `h = −r`, 0 at `h = r`,
and exactly 1/2 at `h = 0`. -/
theorem segment_area_cases (s e r : ℝ) (hr : 0 < r) :
    (e - s ≤ -r → calculate_circular_segment_area s e r = 1) ∧
    (r ≤ e - s → calculate_circular_segment_area s e r = 0) ∧
    (|e - s| < r → calculate_circular_segment_area s e r =
      if 0 ≤ e - s then segFrac (min |e - s| r) r
      else 1 - segFrac (min |e - s| r) r) ∧
    (e - s = -r → calculate_circular_segment_area s e r = 1) ∧
    (e - s = r → calculate_circular_segment_area s e r = 0) ∧
    (e - s = 0 → calculate_circular_segment_area s e r = 1 / 2) := by
  have hc : (0 : ℝ) < π / 180 := by positivity
  have hrc : 0 < r * (π / 180) := mul_pos hr hc
  have partA : e - s ≤ -r → calculate_circular_segment_area s e r = 1 := by
    intro hA
    unfold calculate_circular_segment_area fracRad
    rw [if_neg (not_le.mpr (by nlinarith)), if_pos (by nlinarith)]
  have partB : r ≤ e - s → calculate_circular_segment_area s e r = 0 := by
    intro hB
    unfold calculate_circular_segment_area fracRad
    rw [if_pos (by nlinarith)]
  have partC : |e - s| < r → calculate_circular_segment_area s e r =
      if 0 ≤ e - s then segFrac (min |e - s| r) r
      else 1 - segFrac (min |e - s| r) r := by
    intro hC
    have habs1 : e - s < r := lt_of_le_of_lt (le_abs_self _) hC
    have habs2 : -r < e - s := by
      have h5 := neg_abs_le (e - s)
      linarith
    have hmin : min |(e - s) * (π / 180)| (r * (π / 180)) =
        (min |e - s| r) * (π / 180) := by
      rw [abs_mul, abs_of_pos hc]
      rcases le_total |e - s| r with hm | hm
      · rw [min_eq_left hm, min_eq_left (by nlinarith)]
      · rw [min_eq_right hm, min_eq_right (by nlinarith)]
    have hseg : segFrac ((min |e - s| r) * (π / 180)) (r * (π / 180)) =
        segFrac (min |e - s| r) r := by
      rw [mul_comm (min |e - s| r) (π / 180), mul_comm r (π / 180)]
      exact segFrac_scale hc
    unfold calculate_circular_segment_area fracRad
    rw [if_neg (not_le.mpr (by nlinarith)),
      if_neg (not_le.mpr (by nlinarith))]
    by_cases h0 : 0 ≤ e - s
    · rw [if_pos (by nlinarith : (0 : ℝ) ≤ (e - s) * (π / 180)), if_pos h0,
        hmin, hseg]
    · have hneg : e - s < 0 := lt_of_not_le h0
      rw [if_neg (not_le.mpr (by nlinarith)), if_neg h0, hmin, hseg]
  have partF : e - s = 0 → calculate_circular_segment_area s e r = 1 / 2 := by
    intro hF
    unfold calculate_circular_segment_area fracRad
    rw [hF, zero_mul,
      if_neg (not_le.mpr hrc),
      if_neg (not_le.mpr (by linarith)),
      if_pos le_rfl, abs_zero, min_eq_left hrc.le, segFrac_zero hrc]
  exact ⟨partA, partB, partC,
    fun hD => partA (le_of_eq hD),
    fun hE => partB (le_of_eq hE.symm),
    partF⟩

/-- Witness for C1 at `s = 0`, `e = 0`, `r = 1`: the grazing case yields
exactly one half. -/
theorem segment_area_cases_witness :
    (0 : ℝ) < 1 ∧ calculate_circular_segment_area 0 0 1 = 1 / 2 :=
  ⟨one_pos, (segment_area_cases 0 0 1 one_pos).2.2.2.2.2 (sub_self 0)⟩

/-- C10: for every fixed sun angular radius `r > 0`, the illumination
fraction is non-increasing as `h = horizon − sun` increases, across the
partial band and, combined with the boundary cases, across all `h`. -/
theorem illumination_fraction_antitone (r s e s2 e2 : ℝ) (hr : 0 < r)
    (hle : e - s ≤ e2 - s2) :
    calculate_circular_segment_area s2 e2 r ≤
      calculate_circular_segment_area s e r := by
  have hc : (0 : ℝ) < π / 180 := by positivity
  unfold calculate_circular_segment_area
  exact fracRad_antitone (mul_pos hr hc) _ _
    (mul_le_mul_of_nonneg_right hle hc.le)

/-- Witness for C10 with `r = 1` and `h` rising from 0 to 1. -/
theorem illumination_fraction_antitone_witness :
    (0 : ℝ) < 1 ∧ (0 : ℝ) - 0 ≤ 1 - 0 ∧
    calculate_circular_segment_area 0 1 1 ≤ calculate_circular_segment_area 0 0 1 :=
  ⟨one_pos, by norm_num,
   illumination_fraction_antitone 1 0 0 0 1 one_pos (by norm_num)⟩

end Lunagis
